import Mathlib

/-!
Shallow embedding of the process-pool / process-queue library
(src/ProcessPool.hpp, src/ProcessQueue.hpp).

The embedding models:

* the supervisor-side worker-record array and the completion-status byte array
  together with the `WaitForOne` poll loop of `ProcessPool::WaitForOne`
  (the loop body is pure over a fixed snapshot of the shared state; the
  inter-pass sleep is dropped and the loop is given explicit fuel);
* the child-side `ProcessPool::Exit` (exit codes and the completion byte);
* the bounded-concurrency fork schedule of `ProcessPool::Fork`, with the
  outcome of each blocking `WaitForOne` call supplied by an oracle;
* the shared-memory request queue of `ProcessQueue`: the header fields
  `fillPtr`/`head`/`tail`/`free`, the node heap (addressed by byte offsets
  into the mapped region), and the operations `Post`, `GetNextRequest`,
  `FreeRequest`, `WaitForCompletion`;
* the `QueueLock` spin loop with its Ethernet-style random backoff, on a lock
  that is never released (the `__sync_fetch_and_or` test-and-set always fails).

Machine integers: all sizes and offsets are `Nat`.  The only subtraction in
the source is `mRequestQueueSize - (fillPtr - base)` on `size_t`; it cannot
underflow in any state the library constructs (`fillPtr` never exceeds the
region bound, which is proved below), and on those states `Nat` subtraction
agrees with `size_t` subtraction, so no explicit `% 2^64` is needed.
-/

set_option linter.unusedVariables false

namespace ProcessPool

/-- Child process status enumerator (`CHILD_STATUS` in ProcessPool.hpp). -/
inductive CHILD_STATUS where
  | NOT_RUNNING
  | RUNNING
  | DONE
deriving DecidableEq

/-- Child process running info (`ChildPID` in ProcessPool.hpp):
a pid together with its status. -/
structure ChildPID where
  pid : Nat
  status : CHILD_STATUS
deriving DecidableEq

/-- Default element used with `List.getD` when indexing worker records. -/
def dummyChild : ChildPID := { pid := 0, status := .NOT_RUNNING }

/-- Result of one scan over the worker records inside `WaitForOne`'s loop:
either an early `return` (pid, crashed flag, index of the slot), or the scan
ran to the end and reports whether any `RUNNING` child remains. -/
inductive PassResult where
  | found (pid : Nat) (crashed : Bool) (idx : Nat)
  | scanned (anyRunning : Bool)
deriving DecidableEq

/-- One pass of the `for(childIndex ...)` loop in `ProcessPool::WaitForOne`,
scanning records from absolute index `i`.  `done` is the shared completion
byte array `mIsChildDone` (true = byte 1), `alive` is `IsProcessAlive` on a
pid, and `probe` is the `crashTestTimer == 0` condition guarding the
liveness probe. -/
def scanFrom (done : Nat → Bool) (alive : Nat → Bool) (probe : Bool) :
    List ChildPID → Nat → PassResult
  | [], _ => .scanned false
  | r :: rest, i =>
    if r.status ≠ .RUNNING then
      scanFrom done alive probe rest (i + 1)
    else if done i then
      .found r.pid false i
    else if probe && !(alive r.pid) then
      .found r.pid true i
    else
      match scanFrom done alive probe rest (i + 1) with
      | .found p c j => .found p c j
      | .scanned _ => .scanned true

/-- Set `mChildrenPIDs[i].status = CHILD_STATUS::DONE` (the mutation both
early-return sites of `WaitForOne` perform before returning). -/
def markDone : List ChildPID → Nat → List ChildPID
  | [], _ => []
  | r :: rest, 0 => { r with status := .DONE } :: rest
  | r :: rest, i + 1 => r :: markDone rest i

/-- `CRASH_TEST_INTERVAL` of `ProcessPool::WaitForOne` (in poll-loop passes). -/
def CRASH_TEST_INTERVAL : Nat := 10

/-- The `while(true)` poll loop of `ProcessPool::WaitForOne` over a fixed
snapshot of the records, completion bytes and liveness, with explicit fuel
(`none` means the loop was still running when the fuel ran out).  `timer` is
`crashTestTimer`; after a pass that found nothing it is reset when expired
and then decremented (the code resets to `CRASH_TEST_INTERVAL` and decrements
after the sleep). -/
def waitForOneAux (recs : List ChildPID) (done : Nat → Bool) (alive : Nat → Bool) :
    Nat → Nat → Option (Nat × Bool × List ChildPID)
  | 0, _ => none
  | fuel + 1, timer =>
    match scanFrom done alive (timer == 0) recs 0 with
    | .found p c i => some (p, c, markDone recs i)
    | .scanned false => some (0, false, recs)
    | .scanned true =>
      waitForOneAux recs done alive fuel
        ((if timer == 0 then CRASH_TEST_INTERVAL else timer) - 1)

/-- `ProcessPool::WaitForOne`: returns `(pid, isCrashed, updated records)`,
`pid = 0` meaning all children are done.  The crash-test timer starts at
`CRASH_TEST_INTERVAL`. -/
def WaitForOne (recs : List ChildPID) (done : Nat → Bool) (alive : Nat → Bool)
    (fuel : Nat) : Option (Nat × Bool × List ChildPID) :=
  waitForOneAux recs done alive fuel CRASH_TEST_INTERVAL

/-- Observable outcome of `ProcessPool::Exit`: either control returns to the
caller (the parent-process branch), or the process terminates with the given
exit code. -/
inductive ExitOutcome where
  | noOp
  | exited (code : Nat)
deriving DecidableEq

/-- `ProcessPool::Exit(status, keepIdle)` as seen from the shared state: in
the parent it reports an error and returns (no exit, completion array
untouched).  In a child with `status = true` it sets its own completion byte
and eventually calls `_exit(0)` (immediately, or after the keep-idle loop
observes the parent gone); with `status = false` it calls `_exit(1)` without
touching the completion array. -/
def Exit (isParent : Bool) (status : Bool) (keepIdle : Bool) (childIndex : Nat)
    (isChildDone : Nat → Bool) : ExitOutcome × (Nat → Bool) :=
  if isParent then
    (.noOp, isChildDone)
  else if status then
    (.exited 0, fun j => if j = childIndex then true else isChildDone j)
  else
    (.exited 1, isChildDone)

/-- Outcome of one blocking `WaitForOne` call inside `ProcessPool::Fork`'s
loop, as the fork schedule observes it: a crashed child (abort the
schedule), pid 0 (all children done, running count reset to 0), or one
completed child (running count decremented). -/
inductive WaitOutcome where
  | crashed
  | allDone
  | oneDone

/-- The `maxConcurrentProcs > 0 ? maxConcurrentProcs : procCount` adjustment
in `ProcessPool::Create`. -/
def effectiveMaxConcurrent (procCount maxConcurrentProcs : Nat) : Nat :=
  if 0 < maxConcurrentProcs then maxConcurrentProcs else procCount

/-- The fork schedule of `ProcessPool::Fork`: the list of values of
`childCount` observed immediately after each successful fork.  `ws` is an
oracle giving the outcome of the `w`-th blocking `WaitForOne` call, `total`
is the number of children still to fork, `count` is the current
`childCount`.  A crashed wait aborts the schedule (`break`). -/
def forkTrace (ws : Nat → WaitOutcome) (maxChildCount : Nat) :
    Nat → Nat → Nat → List Nat
  | 0, _, _ => []
  | total + 1, w, count =>
    if count = maxChildCount then
      match ws w with
      | .crashed => []
      | .allDone => (0 + 1) :: forkTrace ws maxChildCount total (w + 1) (0 + 1)
      | .oneDone =>
        (count - 1 + 1) :: forkTrace ws maxChildCount total (w + 1) (count - 1 + 1)
    else
      (count + 1) :: forkTrace ws maxChildCount total w (count + 1)

end ProcessPool

namespace ProcessQueue

/-- A queue node (`ProcessQueue::Node`): the user payload (the `ARGS` base
subobject) together with the `next` pointer.  Pointers are byte offsets into
the mapped region; `none` is `nullptr`. -/
structure QNode (α : Type) where
  payload : α
  next : Option Nat

/-- The request-queue shared-memory state (`ProcessQueue::RequestQueue`
header plus the node arena).  `fillPtr` is kept as the offset of
`mRequestQueue->fillPtr` from the region base; `mem` maps a node offset to
the node stored there. -/
structure RQ (α : Type) where
  fillPtr : Nat
  head : Option Nat
  tail : Option Nat
  free : Option Nat
  mem : Nat → QNode α

/-- Write the payload of the node at offset `n` (the `(ARGS&)(*node) = args`
assignment, which leaves `next` alone). -/
def setPayload {α : Type} (mem : Nat → QNode α) (n : Nat) (a : α) : Nat → QNode α :=
  fun k => if k = n then { mem k with payload := a } else mem k

/-- Write the `next` pointer of the node at offset `n`. -/
def setNext {α : Type} (mem : Nat → QNode α) (n : Nat) (v : Option Nat) : Nat → QNode α :=
  fun k => if k = n then { mem k with next := v } else mem k

/-- Overwrite the whole node at offset `n` (placement `new (fillPtr) Node`,
which default-constructs the payload and sets `next` to `nullptr`). -/
def setNode {α : Type} (mem : Nat → QNode α) (n : Nat) (node : QNode α) : Nat → QNode α :=
  fun k => if k = n then node else mem k

/-- How a call to `ProcessQueue::Post` ends.  `assertAbort` models the
failure of `assert(IsParent())` when a worker calls `Post` (the process is
aborted; in particular control does not return to the caller).
`misuseNoOp` is never produced by the code: it is the outcome the
specification's `MisuseOfRole` taxonomy predicts (report the misuse and
return as a no-op), kept here so the two behaviours can be compared. -/
inductive PostResult where
  | assertAbort
  | misuseNoOp
  | lockTimeout
  | queueFull
  | ok
deriving DecidableEq

/-- The tail-append portion of `ProcessQueue::Post` after a node at offset
`n` has been obtained: copy the payload, hang the node off `tail` (or make
it the head when the queue is empty), move `tail`, null the node's `next`,
in exactly the source order. -/
def appendNode {α : Type} (q : RQ α) (n : Nat) (a : α) : RQ α :=
  let q1 : RQ α := { q with mem := setPayload q.mem n a }
  let q2 : RQ α :=
    match q1.tail with
    | none => { q1 with head := some n }
    | some t => { q1 with mem := setNext q1.mem t (some n) }
  let q3 : RQ α := { q2 with tail := some n }
  { q3 with mem := setNext q3.mem n none }

/-- `ProcessQueue::Post`.  `isParent` is the value of `IsParent()` tested by
the leading `assert` (false aborts the process), `lockOk` is whether the
`QueueLock` acquisition succeeded within its budget, `regionSize` is
`mRequestQueueSize` and `nodeSize` is `sizeof(Node)`.  A node is popped from
the freelist when possible, otherwise bump-allocated at `fillPtr` if
`regionSize - fillPtr` still fits a node, otherwise the call fails with
"Request Queue is out of memory". -/
def Post {α : Type} [Inhabited α] (isParent lockOk : Bool) (regionSize nodeSize : Nat)
    (q : RQ α) (a : α) : PostResult × RQ α :=
  if !isParent then
    (.assertAbort, q)
  else if !lockOk then
    (.lockTimeout, q)
  else
    match q.free with
    | some f =>
      (.ok, appendNode { q with free := (q.mem f).next } f a)
    | none =>
      if regionSize - q.fillPtr < nodeSize then
        (.queueFull, q)
      else
        (.ok, appendNode
          { q with mem := setNode q.mem q.fillPtr { payload := default, next := none },
                   fillPtr := q.fillPtr + nodeSize }
          q.fillPtr a)

/-- `ProcessQueue::GetNextRequest`, called in a worker (where its
`assert(IsChild())` passes): detach and return the head node; when the last
node is detached, also null `tail`.  On lock timeout it returns `nullptr`
with the queue untouched. -/
def GetNextRequest {α : Type} (lockOk : Bool) (q : RQ α) : Option Nat × RQ α :=
  if !lockOk then
    (none, q)
  else
    match q.head with
    | none => (none, q)
    | some n =>
      let q1 : RQ α := { q with head := (q.mem n).next }
      let q2 : RQ α := if q1.head = none then { q1 with tail := none } else q1
      (some n, q2)

/-- `ProcessQueue::FreeRequest`, called in a worker: push the node onto the
freelist.  A null node, or a lock timeout, leaves the queue untouched. -/
def FreeRequest {α : Type} (lockOk : Bool) (q : RQ α) (node : Option Nat) : RQ α :=
  match node with
  | none => q
  | some n =>
    if !lockOk then
      q
    else
      { q with mem := setNext q.mem n q.free, free := some n }

/-- `ProcessQueue::CreateRequestQueue`: the queue as freshly placed into the
zero-filled anonymous mapping, with `fillPtr` pointing just past the header
(`addr + sizeof(RequestQueue)`). -/
def CreateRequestQueue {α : Type} [Inhabited α] (headerSize : Nat) : RQ α :=
  { fillPtr := headerSize, head := none, tail := none, free := none,
    mem := fun _ => { payload := default, next := none } }

/-- `ProcessQueue::WaitForCompletion` over a fixed queue snapshot with
explicit fuel: each pass acquires the lock (failure returns `false`) and
returns `true` once `head` is null. -/
def WaitForCompletion {α : Type} (lockOk : Bool) (q : RQ α) : Nat → Option Bool
  | 0 => none
  | fuel + 1 =>
    if !lockOk then some false
    else if q.head = none then some true
    else WaitForCompletion lockOk q fuel

/-- The per-attempt backoff of `QueueLock`: `(random() & 0x3) * 1000`
microseconds, from the `random()` value `r`. -/
def backoffDelay (r : Nat) : Int := ((r &&& 3) * 1000 : Nat)

/-- The `while(waitUseconds > 0)` acquisition loop of
`ProcessQueue::QueueLock::QueueLock` on a lock that is never released (the
`__sync_fetch_and_or` always sees a non-zero byte, so the `break` is never
taken).  `rand` is the stream of `random()` values, `i` the index of the
next one, `w` the current `waitUseconds`.  When the loop exits it yields
`mHasLock = (waitUseconds > 0)`; `none` means the loop was still spinning
when the fuel ran out. -/
def spinLoop (rand : Nat → Nat) : Nat → Nat → Int → Option Bool
  | _, 0, _ => none
  | i, fuel + 1, w =>
    if w ≤ 0 then some (decide (0 < w))
    else spinLoop rand (i + 1) fuel (w - backoffDelay (rand i))

/-- The acquisition loop run against the concrete delay sequence in which
every `random()` value is 0 (so every backoff delay is 0 microseconds),
started on the default 5-second budget, never exits: after any number of
iterations it is still spinning. -/
def spinNeverExitsOnZeros : Prop :=
  ∀ fuel i, spinLoop (fun _ => 0) i fuel 5000000 = none

/-- Offset of the last node of a list of node offsets (`none` for the empty
list): the value `tail` must hold. -/
def lastId : List Nat → Option Nat
  | [] => none
  | [n] => some n
  | _ :: l => lastId l

/-- The pointer `p` heads a null-terminated chain through `nx` visiting
exactly the offsets in `l`. -/
def chain (nx : Nat → Option Nat) : Option Nat → List Nat → Prop
  | p, [] => p = none
  | p, n :: l => p = some n ∧ chain nx (nx n) l

/-- The `next`-pointer heap of a queue state. -/
def nxOf {α : Type} (q : RQ α) : Nat → Option Nat := fun k => (q.mem k).next

/-- Well-formedness of a queue state: `head` chains through exactly the
offsets `act` (the active list) and `free` through `fre` (the freelist),
`tail` points at the last active node, all these nodes are distinct, and
each lies entirely inside the already bump-allocated part of the arena. -/
structure WF (nodeSize : Nat) {α : Type} (q : RQ α) (act fre : List Nat) : Prop where
  hact : chain (nxOf q) q.head act
  hfre : chain (nxOf q) q.free fre
  htail : q.tail = lastId act
  hnodup : (act ++ fre).Nodup
  hbound : ∀ k ∈ act ++ fre, k + nodeSize ≤ q.fillPtr

/-- The `(head == NULL) ⇔ (tail == NULL)` invariant. -/
def htInv {α : Type} (q : RQ α) : Prop := q.head = none ↔ q.tail = none

/-- Payloads stored at a list of node offsets. -/
def plist {α : Type} (q : RQ α) (l : List Nat) : List α :=
  l.map fun k => (q.mem k).payload

/-- Iterate `Post` (as the supervisor, with the lock acquired each time)
over a list of payloads, stopping at the first failure; the `Bool` records
whether every call returned success. -/
def PostAll {α : Type} [Inhabited α] (regionSize nodeSize : Nat) :
    List α → RQ α → Bool × RQ α
  | [], q => (true, q)
  | a :: l, q =>
    match Post true true regionSize nodeSize q a with
    | (.ok, q') => PostAll regionSize nodeSize l q'
    | (_, q') => (false, q')

/-- Perform `k` dequeues (as a worker, lock acquired each time), collecting
the payloads of the returned nodes; stops early on an empty queue. -/
def DrainK {α : Type} : Nat → RQ α → List α
  | 0, _ => []
  | k + 1, q =>
    match GetNextRequest true q with
    | (some n, q') => (q.mem n).payload :: DrainK k q'
    | (none, _) => []

/-- A queue operation, as issued by the supervisor (`post`) or a worker
(`getNext`, `freeReq`). -/
inductive QOp (α : Type) where
  | post (a : α)
  | getNext
  | freeReq (n : Nat)

/-- Run a list of queue operations (each with the lock acquired), tracking
the ghost active list and freelist alongside the queue state.  `avoid` is a
node offset that must never be handed to `FreeRequest` (the node whose
pointer was dropped); a `freeReq` is also rejected (`none`) unless its node
is currently on neither list and lies inside the allocated arena — which is
the case for every node a worker actually frees, since it was just detached
by `GetNextRequest`. -/
def runOpsChk {α : Type} [Inhabited α] (regionSize nodeSize avoid : Nat) :
    List (QOp α) → RQ α × List Nat × List Nat → Option (RQ α × List Nat × List Nat)
  | [], s => some s
  | op :: ops, (q, act, fre) =>
    match op with
    | .post a =>
      match q.free with
      | some f =>
        runOpsChk regionSize nodeSize avoid ops
          ((Post true true regionSize nodeSize q a).2, act ++ [f], fre.drop 1)
      | none =>
        if regionSize - q.fillPtr < nodeSize then
          runOpsChk regionSize nodeSize avoid ops
            ((Post true true regionSize nodeSize q a).2, act, fre)
        else
          runOpsChk regionSize nodeSize avoid ops
            ((Post true true regionSize nodeSize q a).2, act ++ [q.fillPtr], fre)
    | .getNext =>
      runOpsChk regionSize nodeSize avoid ops
        ((GetNextRequest true q).2, act.drop 1, fre)
    | .freeReq n =>
      if n = avoid ∨ n ∈ act ∨ n ∈ fre ∨ ¬(n + nodeSize ≤ q.fillPtr) then none
      else
        runOpsChk regionSize nodeSize avoid ops
          (FreeRequest true q (some n), act, n :: fre)

/-- The node at offset `n` is lost to the queue: the state is well-formed
with active list `act` and freelist `fre`, `n` is on neither, and `n` lies
inside the already-allocated arena (so the bump allocator will never hand
out its offset again). -/
def NodeLost (nodeSize : Nat) {α : Type} (n : Nat) (q : RQ α) (act fre : List Nat) : Prop :=
  WF nodeSize q act fre ∧ n ∉ act ∧ n ∉ fre ∧ n + nodeSize ≤ q.fillPtr

variable {α : Type}

theorem next_setPayload (mem : Nat → QNode α) (n : Nat) (a : α) (k : Nat) :
    (setPayload mem n a k).next = (mem k).next := by
  unfold setPayload; split <;> rfl

theorem payload_setPayload_self (mem : Nat → QNode α) (n : Nat) (a : α) :
    (setPayload mem n a n).payload = a := by
  unfold setPayload; simp

theorem payload_setPayload_ne (mem : Nat → QNode α) (n : Nat) (a : α) (k : Nat)
    (h : k ≠ n) : (setPayload mem n a k).payload = (mem k).payload := by
  unfold setPayload; simp [h]

theorem payload_setNext (mem : Nat → QNode α) (n : Nat) (v : Option Nat) (k : Nat) :
    (setNext mem n v k).payload = (mem k).payload := by
  unfold setNext; split <;> rfl

theorem next_setNext_self (mem : Nat → QNode α) (n : Nat) (v : Option Nat) :
    (setNext mem n v n).next = v := by
  unfold setNext; simp

theorem next_setNext_ne (mem : Nat → QNode α) (n : Nat) (v : Option Nat) (k : Nat)
    (h : k ≠ n) : (setNext mem n v k).next = (mem k).next := by
  unfold setNext; simp [h]

theorem next_setNode_ne (mem : Nat → QNode α) (n : Nat) (nd : QNode α) (k : Nat)
    (h : k ≠ n) : (setNode mem n nd k) = mem k := by
  unfold setNode; simp [h]

theorem chain_agree {nx nx' : Nat → Option Nat} :
    ∀ (l : List Nat) (p : Option Nat), (∀ k ∈ l, nx' k = nx k) →
      chain nx p l → chain nx' p l := by
  intro l
  induction l with
  | nil => intro p _ h; exact h
  | cons n t ih =>
    intro p hag h
    obtain ⟨hp, hc⟩ := h
    refine ⟨hp, ?_⟩
    rw [hag n (List.mem_cons_self n t)]
    exact ih (nx n) (fun k hk => hag k (List.mem_cons_of_mem _ hk)) hc

theorem chain_none {nx : Nat → Option Nat} {l : List Nat}
    (h : chain nx none l) : l = [] := by
  cases l with
  | nil => rfl
  | cons n t => exact absurd h.1 (by simp)

theorem chain_some {nx : Nat → Option Nat} {n : Nat} {l : List Nat}
    (h : chain nx (some n) l) : ∃ t, l = n :: t ∧ chain nx (nx n) t := by
  cases l with
  | nil => exact absurd h (by simp [chain])
  | cons m t =>
    obtain ⟨hp, hc⟩ := h
    obtain rfl : m = n := by injection hp.symm
    exact ⟨t, rfl, hc⟩

theorem lastId_eq_none {l : List Nat} (h : lastId l = none) : l = [] := by
  induction l with
  | nil => rfl
  | cons n t ih =>
    cases t with
    | nil => simp [lastId] at h
    | cons m s =>
      have := ih (by simpa [lastId] using h)
      simp at this

theorem lastId_mem : ∀ {l : List Nat} {t : Nat}, lastId l = some t → t ∈ l := by
  intro l
  induction l with
  | nil => intro t h; simp [lastId] at h
  | cons n s ih =>
    intro t h
    cases s with
    | nil =>
      simp [lastId] at h
      simp [h]
    | cons m u =>
      have : lastId (m :: u) = some t := by simpa [lastId] using h
      exact List.mem_cons_of_mem _ (ih this)

theorem lastId_cons_ne {l : List Nat} (a : Nat) (h : l ≠ []) :
    lastId (a :: l) = lastId l := by
  cases l with
  | nil => exact absurd rfl h
  | cons m u => rfl

theorem lastId_concat : ∀ (l : List Nat) (n : Nat), lastId (l ++ [n]) = some n := by
  intro l
  induction l with
  | nil => intro n; rfl
  | cons a t ih =>
    intro n
    rw [List.cons_append, lastId_cons_ne a (by simp), ih]

theorem chain_snoc {nx nx' : Nat → Option Nat} :
    ∀ (l : List Nat) (p : Option Nat) (t n : Nat),
      chain nx p l → lastId l = some t → l.Nodup → n ∉ l →
      (∀ k ∈ l, k ≠ t → nx' k = nx k) → nx' t = some n → nx' n = none →
      chain nx' p (l ++ [n]) := by
  intro l
  induction l with
  | nil => intro p t n _ hlast; simp [lastId] at hlast
  | cons a s ih =>
    intro p t n hch hlast hnd hn hag ht hn'
    obtain ⟨hp, hc⟩ := hch
    cases s with
    | nil =>
      obtain rfl : a = t := by simpa [lastId] using hlast
      exact ⟨hp, ht, hn'⟩
    | cons b u =>
      have hlast' : lastId (b :: u) = some t := by simpa [lastId] using hlast
      have hat : a ≠ t := by
        intro h
        subst h
        exact (List.nodup_cons.mp hnd).1 (lastId_mem hlast')
      refine ⟨hp, ?_⟩
      rw [hag a (List.mem_cons_self _ _) hat]
      exact ih (nx a) t n hc hlast' (List.nodup_cons.mp hnd).2
        (fun h => hn (List.mem_cons_of_mem _ h))
        (fun k hk hkt => hag k (List.mem_cons_of_mem _ hk) hkt) ht hn'

theorem appendNode_tail_none (q : RQ α) (n : Nat) (a : α) (h : q.tail = none) :
    appendNode q n a =
      { fillPtr := q.fillPtr, head := some n, tail := some n, free := q.free,
        mem := setNext (setPayload q.mem n a) n none } := by
  unfold appendNode
  simp only [h]

theorem appendNode_tail_some (q : RQ α) (n : Nat) (a : α) (t : Nat) (h : q.tail = some t) :
    appendNode q n a =
      { fillPtr := q.fillPtr, head := q.head, tail := some n, free := q.free,
        mem := setNext (setNext (setPayload q.mem n a) t (some n)) n none } := by
  unfold appendNode
  simp only [h]

theorem appendNode_fillPtr (q : RQ α) (n : Nat) (a : α) :
    (appendNode q n a).fillPtr = q.fillPtr := by
  cases h : q.tail with
  | none => rw [appendNode_tail_none q n a h]
  | some t => rw [appendNode_tail_some q n a t h]

theorem appendNode_free (q : RQ α) (n : Nat) (a : α) :
    (appendNode q n a).free = q.free := by
  cases h : q.tail with
  | none => rw [appendNode_tail_none q n a h]
  | some t => rw [appendNode_tail_some q n a t h]

theorem appendNode_payload_self (q : RQ α) (n : Nat) (a : α) :
    ((appendNode q n a).mem n).payload = a := by
  cases h : q.tail with
  | none =>
    rw [appendNode_tail_none q n a h]
    simp only [payload_setNext, payload_setPayload_self]
  | some t =>
    rw [appendNode_tail_some q n a t h]
    by_cases htn : n = t
    · subst htn
      simp only [payload_setNext, payload_setPayload_self]
    · simp only [payload_setNext, payload_setPayload_self]

theorem appendNode_payload_ne (q : RQ α) (n : Nat) (a : α) (k : Nat) (h : k ≠ n) :
    ((appendNode q n a).mem k).payload = (q.mem k).payload := by
  cases ht : q.tail with
  | none =>
    rw [appendNode_tail_none q n a ht]
    simp only [payload_setNext, payload_setPayload_ne _ _ _ _ h]
  | some t =>
    rw [appendNode_tail_some q n a t ht]
    simp only [payload_setNext, payload_setPayload_ne _ _ _ _ h]

/-- A `Post` that appends never exceeds the region bound, never shrinks the
arena, and preserves payloads at untouched offsets. -/
theorem wf_append (ns : Nat) (q : RQ α) (act fre : List Nat) (n : Nat) (a : α)
    (hwf : WF ns q act fre) (hna : n ∉ act) (hnf : n ∉ fre)
    (hb : n + ns ≤ q.fillPtr) :
    WF ns (appendNode q n a) (act ++ [n]) fre := by
  cases ht : q.tail with
  | none =>
    have hact0 : act = [] := lastId_eq_none (ht ▸ hwf.htail.symm)
    subst hact0
    rw [appendNode_tail_none q n a ht]
    refine ⟨?_, ?_, ?_, ?_, ?_⟩
    · refine ⟨rfl, ?_⟩
      show (setNext (setPayload q.mem n a) n none n).next = none
      rw [next_setNext_self]
    · refine chain_agree fre q.free ?_ hwf.hfre
      intro k hk
      show (setNext (setPayload q.mem n a) n none k).next = (q.mem k).next
      rw [next_setNext_ne _ _ _ _ (by rintro rfl; exact hnf hk), next_setPayload]
    · simp [lastId]
    · have : fre.Nodup := by simpa using hwf.hnodup
      simpa [List.nodup_cons] using ⟨hnf, this⟩
    · intro k hk
      simp only [List.nil_append] at hk ⊢
      rcases List.mem_cons.mp hk with rfl | hk
      · exact hb
      · exact hwf.hbound k (by simpa using hk)
  | some t =>
    have hlast : lastId act = some t := ht ▸ hwf.htail.symm ▸ rfl
    have htmem : t ∈ act := lastId_mem hlast
    have htn : t ≠ n := fun h => hna (h ▸ htmem)
    have hdis : ∀ k ∈ act, k ∉ fre := by
      intro k hk hkf
      have := (List.nodup_append.mp hwf.hnodup).2.2
      exact this hk hkf
    have hndact : act.Nodup := (List.nodup_append.mp hwf.hnodup).1
    have hndfre : fre.Nodup := (List.nodup_append.mp hwf.hnodup).2.1
    rw [appendNode_tail_some q n a t ht]
    refine ⟨?_, ?_, ?_, ?_, ?_⟩
    · refine chain_snoc act q.head t n hwf.hact hlast hndact hna ?_ ?_ ?_
      · intro k hk hkt
        show (setNext (setNext (setPayload q.mem n a) t (some n)) n none k).next =
          (q.mem k).next
        rw [next_setNext_ne _ _ _ _ (by rintro rfl; exact hna hk),
          next_setNext_ne _ _ _ _ hkt, next_setPayload]
      · show (setNext (setNext (setPayload q.mem n a) t (some n)) n none t).next = some n
        rw [next_setNext_ne _ _ _ _ htn, next_setNext_self]
      · show (setNext (setNext (setPayload q.mem n a) t (some n)) n none n).next = none
        rw [next_setNext_self]
    · refine chain_agree fre q.free ?_ hwf.hfre
      intro k hk
      show (setNext (setNext (setPayload q.mem n a) t (some n)) n none k).next =
        (q.mem k).next
      rw [next_setNext_ne _ _ _ _ (by rintro rfl; exact hnf hk),
        next_setNext_ne _ _ _ _ (by rintro rfl; exact hdis k htmem hk), next_setPayload]
    · simp [lastId_concat]
    · rw [List.append_assoc, List.singleton_append, List.nodup_middle, List.nodup_cons]
      exact ⟨by simp [hna, hnf], hwf.hnodup⟩
    · intro k hk
      rw [List.append_assoc, List.singleton_append] at hk
      rcases List.mem_append.mp hk with hk | hk
      · exact hwf.hbound k (List.mem_append.mpr (Or.inl hk))
      · rcases List.mem_cons.mp hk with rfl | hk
        · exact hb
        · exact hwf.hbound k (List.mem_append.mpr (Or.inr hk))

theorem plist_appendNode_ne (q : RQ α) (n : Nat) (a : α) (l : List Nat) (hl : n ∉ l) :
    plist (appendNode q n a) l = plist q l := by
  unfold plist
  refine List.map_congr_left ?_
  intro k hk
  exact appendNode_payload_ne q n a k (fun h => hl (h ▸ hk))

theorem plist_appendNode (q : RQ α) (n : Nat) (a : α) (act : List Nat) (hl : n ∉ act) :
    plist (appendNode q n a) (act ++ [n]) = plist q act ++ [a] := by
  unfold plist
  rw [List.map_append]
  congr 1
  · exact plist_appendNode_ne q n a act hl
  · simp [appendNode_payload_self]

theorem Post_free_some [Inhabited α] (rs ns : Nat) (q : RQ α) (a : α) (f : Nat)
    (hf : q.free = some f) :
    Post true true rs ns q a = (.ok, appendNode { q with free := (q.mem f).next } f a) := by
  unfold Post
  simp only [hf, Bool.not_true, Bool.false_eq_true, if_false]

theorem Post_free_none_full [Inhabited α] (rs ns : Nat) (q : RQ α) (a : α)
    (hf : q.free = none) (h : rs - q.fillPtr < ns) :
    Post true true rs ns q a = (.queueFull, q) := by
  unfold Post
  simp only [hf, Bool.not_true, Bool.false_eq_true, if_false, if_pos h]

theorem Post_free_none_ok [Inhabited α] (rs ns : Nat) (q : RQ α) (a : α)
    (hf : q.free = none) (h : ¬(rs - q.fillPtr < ns)) :
    Post true true rs ns q a =
      (.ok, appendNode
        { q with mem := setNode q.mem q.fillPtr { payload := default, next := none },
                 fillPtr := q.fillPtr + ns }
        q.fillPtr a) := by
  unfold Post
  simp only [hf, Bool.not_true, Bool.false_eq_true, if_false, if_neg h]

/-- A successful `Post` appends one node to the active list: it either pops
the head of the freelist or bump-allocates at `fillPtr`, well-formedness is
preserved, the stored payload sequence is extended by the posted payload,
and `fillPtr` never decreases. -/
theorem Post_ok_wf [Inhabited α] (rs ns : Nat) (hns : 0 < ns) (q : RQ α) (a : α)
    (act fre : List Nat) (hwf : WF ns q act fre)
    (hok : (Post true true rs ns q a).1 = .ok) :
    ∃ n fre2,
      ((q.free = some n ∧ fre = n :: fre2) ∨
        (q.free = none ∧ fre = [] ∧ fre2 = [] ∧ n = q.fillPtr)) ∧
      WF ns (Post true true rs ns q a).2 (act ++ [n]) fre2 ∧
      plist (Post true true rs ns q a).2 (act ++ [n]) = plist q act ++ [a] ∧
      q.fillPtr ≤ (Post true true rs ns q a).2.fillPtr := by
  have hdis := (List.nodup_append.mp hwf.hnodup).2.2
  cases hf : q.free with
  | some f =>
    obtain ⟨fre2, rfl, hcf⟩ := chain_some (hf ▸ hwf.hfre)
    have hfa : f ∉ act := fun h => hdis h (List.mem_cons_self f fre2)
    have hmid := hwf.hnodup
    rw [List.nodup_middle, List.nodup_cons] at hmid
    have hff : f ∉ fre2 := fun h => hmid.1 (List.mem_append.mpr (Or.inr h))
    have hbf : f + ns ≤ q.fillPtr :=
      hwf.hbound f (List.mem_append.mpr (Or.inr (List.mem_cons_self f fre2)))
    have hwf1 : WF ns { q with free := (q.mem f).next } act fre2 := by
      refine ⟨hwf.hact, hcf, hwf.htail, hmid.2, ?_⟩
      intro k hk
      refine hwf.hbound k ?_
      rcases List.mem_append.mp hk with hk | hk
      · exact List.mem_append.mpr (Or.inl hk)
      · exact List.mem_append.mpr (Or.inr (List.mem_cons_of_mem f hk))
    refine ⟨f, fre2, Or.inl ⟨rfl, rfl⟩, ?_, ?_, ?_⟩
    · rw [Post_free_some rs ns q a f hf]
      exact wf_append ns _ act fre2 f a hwf1 hfa hff hbf
    · rw [Post_free_some rs ns q a f hf]
      exact plist_appendNode _ f a act hfa
    · rw [Post_free_some rs ns q a f hf]
      simp [appendNode_fillPtr]
  | none =>
    have hfre0 : fre = [] := chain_none (hf ▸ hwf.hfre)
    subst hfre0
    by_cases hav : rs - q.fillPtr < ns
    · rw [Post_free_none_full rs ns q a hf hav] at hok
      exact absurd hok (by simp)
    · have hfpa : q.fillPtr ∉ act := by
        intro h
        have := hwf.hbound q.fillPtr (List.mem_append.mpr (Or.inl h))
        omega
      have hwf1 : WF ns
          { q with mem := setNode q.mem q.fillPtr { payload := default, next := none },
                   fillPtr := q.fillPtr + ns } act [] := by
        refine ⟨?_, ?_, hwf.htail, hwf.hnodup, ?_⟩
        · refine chain_agree act q.head ?_ hwf.hact
          intro k hk
          show (setNode q.mem q.fillPtr _ k).next = (q.mem k).next
          rw [next_setNode_ne _ _ _ _ (by rintro rfl; exact hfpa hk)]
        · exact hf
        · intro k hk
          have := hwf.hbound k hk
          show k + ns ≤ q.fillPtr + ns
          omega
      refine ⟨q.fillPtr, [], Or.inr ⟨rfl, rfl, rfl, rfl⟩, ?_, ?_, ?_⟩
      · rw [Post_free_none_ok rs ns q a hf hav]
        exact wf_append ns _ act [] q.fillPtr a hwf1 hfpa (by simp) (le_refl _)
      · rw [Post_free_none_ok rs ns q a hf hav]
        rw [plist_appendNode _ q.fillPtr a act hfpa]
        congr 1
        unfold plist
        refine List.map_congr_left ?_
        intro k hk
        show (setNode q.mem q.fillPtr _ k).payload = (q.mem k).payload
        rw [next_setNode_ne _ _ _ _ (by rintro rfl; exact hfpa hk)]
      · rw [Post_free_none_ok rs ns q a hf hav]
        simp [appendNode_fillPtr]

/-- Dequeueing from an empty well-formed queue returns null and leaves the
queue unchanged. -/
theorem GetNext_empty (ns : Nat) (q : RQ α) (fre : List Nat)
    (hwf : WF ns q [] fre) : GetNextRequest true q = (none, q) := by
  have hh : q.head = none := hwf.hact
  unfold GetNextRequest
  simp [hh]

/-- Dequeueing from a well-formed queue with active list `n :: act` detaches
exactly `n`, does not touch the node heap or the arena pointer, and
preserves well-formedness. -/
theorem GetNext_wf (ns : Nat) (q : RQ α) (n : Nat) (act fre : List Nat)
    (hwf : WF ns q (n :: act) fre) :
    (GetNextRequest true q).1 = some n ∧
    (GetNextRequest true q).2.mem = q.mem ∧
    (GetNextRequest true q).2.fillPtr = q.fillPtr ∧
    WF ns (GetNextRequest true q).2 act fre := by
  obtain ⟨hh, hc⟩ := hwf.hact
  have hnodup' : (act ++ fre).Nodup := by
    have := hwf.hnodup
    rw [List.cons_append, List.nodup_cons] at this
    exact this.2
  have hbound' : ∀ k ∈ act ++ fre, k + ns ≤ q.fillPtr := by
    intro k hk
    refine hwf.hbound k ?_
    rw [List.cons_append]
    exact List.mem_cons_of_mem n hk
  cases hnx : (q.mem n).next with
  | none =>
    have hact0 : act = [] := chain_none (by rw [← hnx]; exact hc)
    subst hact0
    have hstep : GetNextRequest true q =
        (some n, { q with head := none, tail := none }) := by
      unfold GetNextRequest
      simp [hh, hnx]
    rw [hstep]
    exact ⟨rfl, rfl, rfl, ⟨rfl, hwf.hfre, rfl, hnodup', hbound'⟩⟩
  | some m =>
    have hc' : chain (nxOf q) (some m) act := by rw [← hnx]; exact hc
    obtain ⟨u, rfl, _⟩ := chain_some hc'
    have hstep : GetNextRequest true q = (some n, { q with head := some m }) := by
      unfold GetNextRequest
      simp [hh, hnx]
    rw [hstep]
    refine ⟨rfl, rfl, rfl, ⟨hc', hwf.hfre, ?_, hnodup', hbound'⟩⟩
    show q.tail = lastId (m :: u)
    rw [hwf.htail, lastId_cons_ne n (by simp)]

/-- Freeing a node that is on neither list and lies inside the allocated
arena pushes it onto the freelist and preserves well-formedness. -/
theorem FreeReq_wf (ns : Nat) (q : RQ α) (n : Nat) (act fre : List Nat)
    (hwf : WF ns q act fre) (hna : n ∉ act) (hnf : n ∉ fre)
    (hb : n + ns ≤ q.fillPtr) :
    WF ns (FreeRequest true q (some n)) act (n :: fre) ∧
    (FreeRequest true q (some n)).fillPtr = q.fillPtr := by
  have hstep : FreeRequest true q (some n) =
      { q with mem := setNext q.mem n q.free, free := some n } := rfl
  rw [hstep]
  refine ⟨⟨?_, ?_, hwf.htail, ?_, ?_⟩, rfl⟩
  · refine chain_agree act q.head ?_ hwf.hact
    intro k hk
    show (setNext q.mem n q.free k).next = (q.mem k).next
    rw [next_setNext_ne _ _ _ _ (by rintro rfl; exact hna hk)]
  · refine ⟨rfl, ?_⟩
    show chain _ (setNext q.mem n q.free n).next fre
    rw [next_setNext_self]
    refine chain_agree fre q.free ?_ hwf.hfre
    intro k hk
    show (setNext q.mem n q.free k).next = (q.mem k).next
    rw [next_setNext_ne _ _ _ _ (by rintro rfl; exact hnf hk)]
  · rw [List.nodup_middle, List.nodup_cons]
    exact ⟨by simp [hna, hnf], hwf.hnodup⟩
  · intro k hk
    show k + ns ≤ q.fillPtr
    rcases List.mem_append.mp hk with hk | hk
    · exact hwf.hbound k (List.mem_append.mpr (Or.inl hk))
    · rcases List.mem_cons.mp hk with rfl | hk
      · exact hb
      · exact hwf.hbound k (List.mem_append.mpr (Or.inr hk))

/-- Iterating successful posts over a well-formed queue extends the stored
payload sequence by exactly the posted payloads, in order. -/
theorem PostAll_wf [Inhabited α] (rs ns : Nat) (hns : 0 < ns) :
    ∀ (l : List α) (q : RQ α) (act fre : List Nat), WF ns q act fre →
      (PostAll rs ns l q).1 = true →
      ∃ act2 fre2, WF ns (PostAll rs ns l q).2 act2 fre2 ∧
        plist (PostAll rs ns l q).2 act2 = plist q act ++ l := by
  intro l
  induction l with
  | nil =>
    intro q act fre hwf _
    exact ⟨act, fre, hwf, by simp [PostAll]⟩
  | cons a l ih =>
    intro q act fre hwf hall
    rcases hp : Post true true rs ns q a with ⟨r, q1⟩
    cases r with
    | ok =>
      have hok : (Post true true rs ns q a).1 = .ok := by rw [hp]
      obtain ⟨n, fre2, _, hwf1, hpl, _⟩ := Post_ok_wf rs ns hns q a act fre hwf hok
      rw [hp] at hwf1 hpl
      have hall1 : (PostAll rs ns l q1).1 = true := by
        rw [PostAll, hp] at hall
        exact hall
      have hstep : PostAll rs ns (a :: l) q = PostAll rs ns l q1 := by
        rw [PostAll, hp]
      obtain ⟨act2, fre3, hwf2, hpl2⟩ := ih q1 (act ++ [n]) fre2 hwf1 hall1
      refine ⟨act2, fre3, by rw [hstep]; exact hwf2, ?_⟩
      rw [hstep, hpl2, hpl, List.append_assoc, List.singleton_append]
    | assertAbort =>
      rw [PostAll, hp] at hall
      exact absurd hall (by simp)
    | misuseNoOp =>
      rw [PostAll, hp] at hall
      exact absurd hall (by simp)
    | lockTimeout =>
      rw [PostAll, hp] at hall
      exact absurd hall (by simp)
    | queueFull =>
      rw [PostAll, hp] at hall
      exact absurd hall (by simp)

/-- Draining a well-formed queue with `k` dequeues, where `k` is the length
of the active list, yields exactly the stored payload sequence. -/
theorem DrainK_plist (ns : Nat) :
    ∀ (act : List Nat) (q : RQ α) (fre : List Nat), WF ns q act fre →
      DrainK act.length q = plist q act := by
  intro act
  induction act with
  | nil =>
    intro q fre hwf
    simp [DrainK, plist]
  | cons n act ih =>
    intro q fre hwf
    obtain ⟨h1, h2, h3, hwf2⟩ := GetNext_wf ns q n act fre hwf
    rcases hg : GetNextRequest true q with ⟨o, q2⟩
    rw [hg] at h1 h2 hwf2
    simp only at h1 h2 hwf2
    subst h1
    have : DrainK (n :: act).length q = (q.mem n).payload :: DrainK act.length q2 := by
      rw [List.length_cons, DrainK, hg]
    rw [this, ih q2 fre hwf2]
    unfold plist
    rw [List.map_cons]
    congr 1
    rw [h2]

/-- Core preservation lemma for the lost-node argument: a node that is on
neither list and inside the allocated arena stays that way across any
sequence of queue operations that never frees that very node. -/
theorem runOpsChk_lost [Inhabited α] (rs ns : Nat) (hns : 0 < ns) (n0 : Nat) :
    ∀ (ops : List (QOp α)) (q : RQ α) (act fre : List Nat)
      (q' : RQ α) (act' fre' : List Nat),
      NodeLost ns n0 q act fre →
      runOpsChk rs ns n0 ops (q, act, fre) = some (q', act', fre') →
      NodeLost ns n0 q' act' fre' := by
  intro ops
  induction ops with
  | nil =>
    intro q act fre q' act' fre' hl hrun
    simp only [runOpsChk, Option.some.injEq, Prod.mk.injEq] at hrun
    obtain ⟨h1, h2, h3⟩ := hrun
    subst h1; subst h2; subst h3
    exact hl
  | cons op ops ih =>
    intro q act fre q' act' fre' hl hrun
    obtain ⟨hwf, hna, hnf, hb⟩ := hl
    cases op with
    | post a =>
      cases hf : q.free with
      | some f =>
        obtain ⟨fre2, rfl, hcf⟩ := chain_some (hf ▸ hwf.hfre)
        have hok : (Post true true rs ns q a).1 = .ok := by
          rw [Post_free_some rs ns q a f hf]
        obtain ⟨m, fre3, hcase, hwf1, _, hfp⟩ :=
          Post_ok_wf rs ns hns q a act _ hwf hok
        have hmf : m = f ∧ fre3 = fre2 := by
          rcases hcase with ⟨h1, h2⟩ | ⟨h1, _⟩
          · rw [hf] at h1
            injection h1 with h1
            rw [← h1] at h2
            injection h2 with _ h2
            exact ⟨h1.symm, h2.symm⟩
          · rw [hf] at h1
            exact absurd h1 (by simp)
        obtain ⟨rfl, rfl⟩ := hmf
        simp only [runOpsChk, hf, List.drop_succ_cons, List.drop_zero] at hrun
        refine ih _ _ _ q' act' fre' ⟨hwf1, ?_, ?_, ?_⟩ hrun
        · intro h
          rcases List.mem_append.mp h with h | h
          · exact hna h
          · rcases List.mem_singleton.mp h with rfl
            exact hnf (List.mem_cons_self _ _)
        · exact fun h => hnf (List.mem_cons_of_mem _ h)
        · omega
      | none =>
        have hfre0 : fre = [] := chain_none (hf ▸ hwf.hfre)
        subst hfre0
        by_cases hav : rs - q.fillPtr < ns
        · simp only [runOpsChk, hf, if_pos hav] at hrun
          rw [Post_free_none_full rs ns q a hf hav] at hrun
          exact ih _ _ _ q' act' fre' ⟨hwf, hna, hnf, hb⟩ hrun
        · have hok : (Post true true rs ns q a).1 = .ok := by
            rw [Post_free_none_ok rs ns q a hf hav]
          obtain ⟨m, fre3, hcase, hwf1, _, hfp⟩ :=
            Post_ok_wf rs ns hns q a act _ hwf hok
          have hmf : m = q.fillPtr ∧ fre3 = [] := by
            rcases hcase with ⟨h1, _⟩ | ⟨_, _, h3, h4⟩
            · rw [hf] at h1
              exact absurd h1 (by simp)
            · exact ⟨h4, h3⟩
          obtain ⟨rfl, rfl⟩ := hmf
          simp only [runOpsChk, hf, if_neg hav] at hrun
          refine ih _ _ _ q' act' fre' ⟨hwf1, ?_, hnf, ?_⟩ hrun
          · intro h
            rcases List.mem_append.mp h with h | h
            · exact hna h
            · rcases List.mem_singleton.mp h with rfl
              omega
          · omega
    | getNext =>
      cases act with
      | nil =>
        simp only [runOpsChk, List.drop_nil] at hrun
        rw [GetNext_empty ns q fre hwf] at hrun
        exact ih _ _ _ q' act' fre' ⟨hwf, hna, hnf, hb⟩ hrun
      | cons h t =>
        obtain ⟨_, _, h3, hwf2⟩ := GetNext_wf ns q h t fre hwf
        simp only [runOpsChk, List.drop_succ_cons, List.drop_zero] at hrun
        refine ih _ _ _ q' act' fre'
          ⟨hwf2, fun hm => hna (List.mem_cons_of_mem _ hm), hnf, ?_⟩ hrun
        rw [h3]
        exact hb
    | freeReq m =>
      by_cases hg : m = n0 ∨ m ∈ act ∨ m ∈ fre ∨ ¬(m + ns ≤ q.fillPtr)
      · simp only [runOpsChk, if_pos hg] at hrun
        exact absurd hrun (by simp)
      · simp only [runOpsChk, if_neg hg] at hrun
        push_neg at hg
        obtain ⟨hg1, hg2, hg3, hg4⟩ := hg
        obtain ⟨hwf2, hfp⟩ := FreeReq_wf ns q m act fre hwf hg2 hg3 hg4
        refine ih _ _ _ q' act' fre' ⟨hwf2, hna, ?_, ?_⟩ hrun
        · intro h
          rcases List.mem_cons.mp h with h | h
          · exact hg1 h.symm
          · exact hnf h
        · rw [hfp]
          exact hb

end ProcessQueue

namespace ProcessPool

theorem scanFrom_no_running (done alive : Nat → Bool) (probe : Bool) :
    ∀ (recs : List ChildPID) (i : Nat), (∀ r ∈ recs, r.status ≠ .RUNNING) →
      scanFrom done alive probe recs i = .scanned false := by
  intro recs
  induction recs with
  | nil => intro i _; rfl
  | cons r rest ih =>
    intro i h
    have hr : r.status ≠ .RUNNING := h r (List.mem_cons_self _ _)
    rw [scanFrom, if_pos hr]
    exact ih (i + 1) (fun x hx => h x (List.mem_cons_of_mem _ hx))

theorem scanFrom_scanned_false (done alive : Nat → Bool) (probe : Bool) :
    ∀ (recs : List ChildPID) (i : Nat),
      scanFrom done alive probe recs i = .scanned false →
      ∀ r ∈ recs, r.status ≠ .RUNNING := by
  intro recs
  induction recs with
  | nil => intro i _ r hr; simp at hr
  | cons r rest ih =>
    intro i h x hx
    by_cases hr : r.status ≠ .RUNNING
    · rw [scanFrom, if_pos hr] at h
      rcases List.mem_cons.mp hx with rfl | hx
      · exact hr
      · exact ih (i + 1) h x hx
    · rw [scanFrom, if_neg hr] at h
      by_cases hd : done i
      · rw [if_pos hd] at h
        exact absurd h (by simp)
      · rw [if_neg hd] at h
        by_cases hpr : (probe && !(alive r.pid)) = true
        · rw [if_pos hpr] at h
          exact absurd h (by simp)
        · rw [if_neg hpr] at h
          cases hs : scanFrom done alive probe rest (i + 1) with
          | found p c j => rw [hs] at h; exact absurd h (by simp)
          | scanned b => rw [hs] at h; exact absurd h (by simp)

theorem scanFrom_found_not_crashed (done alive : Nat → Bool) (probe : Bool) :
    ∀ (recs : List ChildPID) (i p j : Nat),
      scanFrom done alive probe recs i = .found p false j →
      ∃ r ∈ recs, r.status = .RUNNING ∧ r.pid = p := by
  intro recs
  induction recs with
  | nil => intro i p j h; simp [scanFrom] at h
  | cons r rest ih =>
    intro i p j h
    by_cases hr : r.status ≠ .RUNNING
    · rw [scanFrom, if_pos hr] at h
      obtain ⟨x, hx, hx2⟩ := ih (i + 1) p j h
      exact ⟨x, List.mem_cons_of_mem _ hx, hx2⟩
    · rw [scanFrom, if_neg hr] at h
      rw [not_not] at hr
      by_cases hd : done i
      · rw [if_pos hd] at h
        injection h with h1 _ _
        exact ⟨r, List.mem_cons_self _ _, hr, h1⟩
      · rw [if_neg hd] at h
        by_cases hpr : (probe && !(alive r.pid)) = true
        · rw [if_pos hpr] at h
          injection h with _ h2 _
          exact absurd h2.symm (by simp)
        · rw [if_neg hpr] at h
          cases hs : scanFrom done alive probe rest (i + 1) with
          | found p2 c2 j2 =>
            rw [hs] at h
            injection h with h1 h2 h3
            rw [h2] at hs
            obtain ⟨x, hx, hst2, hpd2⟩ := ih (i + 1) p2 j2 hs
            exact ⟨x, List.mem_cons_of_mem _ hx, hst2, h1 ▸ hpd2⟩
          | scanned b => rw [hs] at h; exact absurd h (by simp)

theorem scanFrom_least (done alive : Nat → Bool) :
    ∀ (recs : List ChildPID) (base i : Nat), i < recs.length →
      (recs.getD i dummyChild).status = .RUNNING → done (base + i) = true →
      (∀ j, j < i →
        ¬((recs.getD j dummyChild).status = .RUNNING ∧ done (base + j) = true)) →
      scanFrom done alive false recs base =
        .found (recs.getD i dummyChild).pid false (base + i) := by
  intro recs
  induction recs with
  | nil => intro base i hi; simp at hi
  | cons r rest ih =>
    intro base i hi hst hdone hleast
    cases i with
    | zero =>
      rw [List.getD_cons_zero] at hst ⊢
      rw [Nat.add_zero] at hdone ⊢
      rw [scanFrom, if_neg (by simp [hst]), if_pos hdone]
    | succ k =>
      have hk : k < rest.length := by simpa using hi
      rw [List.getD_cons_succ] at hst ⊢
      have harg : base + (k + 1) = (base + 1) + k := by omega
      rw [harg] at hdone ⊢
      have hrest : scanFrom done alive false rest (base + 1) =
          .found (rest.getD k dummyChild).pid false ((base + 1) + k) := by
        refine ih (base + 1) k hk hst hdone ?_
        intro j hj
        have := hleast (j + 1) (by omega)
        rw [List.getD_cons_succ] at this
        have harg2 : base + (j + 1) = (base + 1) + j := by omega
        rw [harg2] at this
        exact this
      by_cases hr : r.status = .RUNNING
      · have h0 := hleast 0 (by omega)
        rw [List.getD_cons_zero, Nat.add_zero] at h0
        have hdb : done base = false := by
          cases hdbv : done base
          · rfl
          · exact absurd ⟨hr, hdbv⟩ h0
        rw [scanFrom, if_neg (by simp [hr]), hdb]
        simp only [Bool.false_eq_true, if_false, Bool.false_and, hrest]
      · rw [scanFrom, if_pos hr]
        exact hrest

theorem markDone_getD_ne :
    ∀ (recs : List ChildPID) (i j : Nat), j ≠ i →
      (markDone recs i).getD j dummyChild = recs.getD j dummyChild := by
  intro recs
  induction recs with
  | nil => intro i j _; simp [markDone]
  | cons r rest ih =>
    intro i j hij
    cases i with
    | zero =>
      cases j with
      | zero => exact absurd rfl hij
      | succ m => rw [markDone]; simp [List.getD_cons_succ]
    | succ k =>
      cases j with
      | zero => rw [markDone]; simp [List.getD_cons_zero]
      | succ m =>
        rw [markDone]
        rw [List.getD_cons_succ, List.getD_cons_succ]
        exact ih k m (by omega)

theorem markDone_getD_self :
    ∀ (recs : List ChildPID) (i : Nat), i < recs.length →
      (markDone recs i).getD i dummyChild =
        { recs.getD i dummyChild with status := .DONE } := by
  intro recs
  induction recs with
  | nil => intro i hi; simp at hi
  | cons r rest ih =>
    intro i hi
    cases i with
    | zero => rw [markDone]; simp [List.getD_cons_zero]
    | succ k =>
      rw [markDone]
      rw [List.getD_cons_succ, List.getD_cons_succ]
      exact ih k (by simpa using hi)

theorem waitForOneAux_zero_no_running (recs : List ChildPID) (done alive : Nat → Bool)
    (hpid : ∀ r ∈ recs, r.pid ≠ 0) :
    ∀ (fuel timer : Nat) (out : List ChildPID),
      waitForOneAux recs done alive fuel timer = some (0, false, out) →
      ∀ r ∈ recs, r.status ≠ .RUNNING := by
  intro fuel
  induction fuel with
  | zero => intro timer out h; simp [waitForOneAux] at h
  | succ f ih =>
    intro timer out h
    rw [waitForOneAux] at h
    cases hs : scanFrom done alive (timer == 0) recs 0 with
    | found p c i =>
      rw [hs] at h
      simp only [Option.some.injEq, Prod.mk.injEq] at h
      obtain ⟨h1, h2, _⟩ := h
      subst h1; subst h2
      obtain ⟨r, hr, hrst, hrp⟩ := scanFrom_found_not_crashed done alive _ recs 0 0 i hs
      exact absurd hrp (hpid r hr)
    | scanned b =>
      cases b with
      | false =>
        rw [hs] at h
        exact scanFrom_scanned_false done alive _ recs 0 hs
      | true =>
        rw [hs] at h
        exact ih _ out h

end ProcessPool

namespace ProcessQueue

variable {α : Type}

/-- With an empty freelist and enough arena room for every payload, a run of
posts succeeds, leaves the freelist empty, and advances `fillPtr` by exactly
one node per post. -/
theorem PostAll_arena [Inhabited α] (rs ns : Nat) (hns : 0 < ns) :
    ∀ (l : List α) (q : RQ α), q.free = none →
      q.fillPtr + l.length * ns ≤ rs →
      (PostAll rs ns l q).1 = true ∧ (PostAll rs ns l q).2.free = none ∧
      (PostAll rs ns l q).2.fillPtr = q.fillPtr + l.length * ns := by
  intro l
  induction l with
  | nil =>
    intro q hf _
    refine ⟨rfl, hf, ?_⟩
    simp [PostAll]
  | cons a l ih =>
    intro q hf hcap
    rw [List.length_cons, Nat.succ_mul] at hcap
    generalize hK : l.length * ns = K at hcap
    have hav : ¬(rs - q.fillPtr < ns) := by omega
    have hpost := Post_free_none_ok rs ns q a hf hav
    have hstep : PostAll rs ns (a :: l) q =
        PostAll rs ns l (Post true true rs ns q a).2 := by
      rw [PostAll]
      rw [hpost]
    have hfree2 : (Post true true rs ns q a).2.free = none := by
      rw [hpost]
      rw [appendNode_free]
      exact hf
    have hfp2 : (Post true true rs ns q a).2.fillPtr = q.fillPtr + ns := by
      rw [hpost]
      rw [appendNode_fillPtr]
    obtain ⟨h1, h2, h3⟩ := ih (Post true true rs ns q a).2 hfree2
      (by rw [hfp2, hK]; omega)
    refine ⟨by rw [hstep]; exact h1, by rw [hstep]; exact h2, ?_⟩
    rw [hstep, h3, hfp2, List.length_cons, Nat.succ_mul, hK]
    omega

theorem htInv_appendNode (q : RQ α) (n : Nat) (a : α) (h : htInv q) :
    htInv (appendNode q n a) := by
  cases ht : q.tail with
  | none =>
    rw [appendNode_tail_none q n a ht]
    exact ⟨fun hh => absurd hh (by simp), fun hh => absurd hh (by simp)⟩
  | some t =>
    rw [appendNode_tail_some q n a t ht]
    refine ⟨fun hh => absurd (ht ▸ h.mp hh) (by simp), fun hh => absurd hh (by simp)⟩

theorem htInv_Post [Inhabited α] (p lk : Bool) (rs ns : Nat) (q : RQ α) (a : α)
    (h : htInv q) : htInv (Post p lk rs ns q a).2 := by
  cases p with
  | false => exact h
  | true =>
    cases lk with
    | false => exact h
    | true =>
      cases hf : q.free with
      | some f =>
        rw [Post_free_some rs ns q a f hf]
        exact htInv_appendNode _ f a h
      | none =>
        by_cases hav : rs - q.fillPtr < ns
        · rw [Post_free_none_full rs ns q a hf hav]
          exact h
        · rw [Post_free_none_ok rs ns q a hf hav]
          exact htInv_appendNode _ q.fillPtr a h

theorem htInv_GetNext (lk : Bool) (q : RQ α) (h : htInv q) :
    htInv (GetNextRequest lk q).2 := by
  cases lk with
  | false => exact h
  | true =>
    cases hh : q.head with
    | none =>
      have : GetNextRequest true q = (none, q) := by
        unfold GetNextRequest
        simp [hh]
      rw [this]
      exact h
    | some n =>
      by_cases hnx : (q.mem n).next = none
      · have : GetNextRequest true q = (some n, { q with head := none, tail := none }) := by
          unfold GetNextRequest
          simp [hh, hnx]
        rw [this]
        exact ⟨fun _ => rfl, fun _ => rfl⟩
      · have : GetNextRequest true q = (some n, { q with head := (q.mem n).next }) := by
          unfold GetNextRequest
          simp [hh, hnx]
        rw [this]
        refine ⟨fun hx => absurd hx hnx, fun htl => absurd (h.mpr htl) (by rw [hh]; simp)⟩

theorem htInv_FreeRequest (lk : Bool) (q : RQ α) (nd : Option Nat) (h : htInv q) :
    htInv (FreeRequest lk q nd) := by
  cases nd with
  | none => exact h
  | some n =>
    cases lk with
    | false => exact h
    | true => exact h

/-- When the spin loop on a never-released lock exits, it always reports
acquisition failure (the loop condition was `waitUseconds > 0`). -/
theorem spinLoop_some_false (rand : Nat → Nat) :
    ∀ (fuel i : Nat) (w : Int) (b : Bool),
      spinLoop rand i fuel w = some b → b = false := by
  intro fuel
  induction fuel with
  | zero => intro i w b h; simp [spinLoop] at h
  | succ f ih =>
    intro i w b h
    rw [spinLoop] at h
    by_cases hw : w ≤ 0
    · rw [if_pos hw] at h
      injection h with h1
      rw [← h1]
      simp only [decide_eq_false_iff_not]
      omega
    · rw [if_neg hw] at h
      exact ih (i + 1) _ b h

end ProcessQueue

namespace ProcessPool

/-- The running-children count along the fork schedule never exceeds the
`maxChildCount` cap, provided it starts below it and the cap is positive. -/
theorem forkTrace_le (ws : Nat → WaitOutcome) (K : Nat) (hK : 1 ≤ K) :
    ∀ (total w count : Nat), count ≤ K →
      ∀ c ∈ forkTrace ws K total w count, c ≤ K := by
  intro total
  induction total with
  | zero => intro w count _ c hc; simp [forkTrace] at hc
  | succ t ih =>
    intro w count hcount c hc
    rw [forkTrace] at hc
    by_cases he : count = K
    · rw [if_pos he] at hc
      cases hw : ws w with
      | crashed => rw [hw] at hc; simp at hc
      | allDone =>
        rw [hw] at hc
        rcases List.mem_cons.mp hc with rfl | hc
        · omega
        · exact ih (w + 1) (0 + 1) (by omega) c hc
      | oneDone =>
        rw [hw] at hc
        rcases List.mem_cons.mp hc with rfl | hc
        · omega
        · exact ih (w + 1) (count - 1 + 1) (by omega) c hc
    · rw [if_neg he] at hc
      rcases List.mem_cons.mp hc with rfl | hc
      · omega
      · exact ih w (count + 1) (by omega) c hc

end ProcessPool

namespace ProcessQueue

variable {α : Type}

/-- C1: for every sequence of successful `Post` calls by the supervisor on a
freshly created request queue, followed by dequeues, `GetNextRequest`
returns the items in exactly the order in which they were posted: draining
the queue with as many dequeues as there were posts yields the posted
payloads in FIFO order (so the i-th successful dequeue yields the payload of
the i-th successful post). -/
theorem fifo_of_posts [Inhabited α] (rs ns hdr : Nat) (l : List α) (hns : 0 < ns)
    (hpost : (PostAll rs ns l (CreateRequestQueue hdr)).1 = true) :
    DrainK l.length (PostAll rs ns l (CreateRequestQueue hdr)).2 = l := by
  have hwf0 : WF ns (CreateRequestQueue (α := α) hdr) [] [] :=
    ⟨rfl, rfl, rfl, by simp, by simp⟩
  obtain ⟨act2, fre2, hwf2, hpl2⟩ := PostAll_wf rs ns hns l _ [] [] hwf0 hpost
  have hpl2' : plist (PostAll rs ns l (CreateRequestQueue hdr)).2 act2 = l := by
    rw [hpl2]
    simp [plist]
  have hlen : act2.length = l.length := by
    rw [← hpl2']
    simp [plist]
  rw [← hlen, DrainK_plist ns act2 _ fre2 hwf2, hpl2']

theorem fifo_of_posts_witness :
    0 < 1 ∧ (PostAll 3 1 [4, 5] (CreateRequestQueue 1 : RQ Nat)).1 = true ∧
    DrainK 2 (PostAll 3 1 [4, 5] (CreateRequestQueue 1 : RQ Nat)).2 = [4, 5] :=
  ⟨by decide, by decide, fifo_of_posts 3 1 1 [4, 5] (by decide) (by decide)⟩

/-- C3: with the lock held, `Post` fails with the queue-full error exactly
when the freelist is empty and the remaining arena space
(`mRequestQueueSize` minus the `fillPtr` offset) is smaller than one node;
whenever `Post` bump-allocates from the arena, the advanced `fillPtr` still
does not exceed the end of the mapped region; and from a fresh queue whose
region holds the header plus `C` nodes, any `C` posts all succeed while the
`(C+1)`-th fails with queue-full. -/
theorem post_queueFull_spec (α : Type) [Inhabited α] (ns : Nat) (hns : 0 < ns) :
    (∀ (rs : Nat) (q : RQ α) (a : α), q.fillPtr ≤ rs →
      ((Post true true rs ns q a).1 = .queueFull ↔
        q.free = none ∧ rs - q.fillPtr < ns)) ∧
    (∀ (rs : Nat) (q : RQ α) (a : α), q.free = none →
      (Post true true rs ns q a).1 = .ok →
      (Post true true rs ns q a).2.fillPtr ≤ rs) ∧
    (∀ (l : List α) (hdr C : Nat) (b : α), l.length = C →
      (PostAll (hdr + C * ns) ns l (CreateRequestQueue hdr)).1 = true ∧
      (Post true true (hdr + C * ns) ns
        (PostAll (hdr + C * ns) ns l (CreateRequestQueue hdr)).2 b).1 = .queueFull) := by
  refine ⟨?_, ?_, ?_⟩
  · intro rs q a _
    constructor
    · intro h
      cases hf : q.free with
      | some f =>
        rw [Post_free_some rs ns q a f hf] at h
        exact absurd h (by simp)
      | none =>
        by_cases hav : rs - q.fillPtr < ns
        · exact ⟨rfl, hav⟩
        · rw [Post_free_none_ok rs ns q a hf hav] at h
          exact absurd h (by simp)
    · rintro ⟨hf, hav⟩
      rw [Post_free_none_full rs ns q a hf hav]
  · intro rs q a hf hok
    by_cases hav : rs - q.fillPtr < ns
    · rw [Post_free_none_full rs ns q a hf hav] at hok
      exact absurd hok (by simp)
    · rw [Post_free_none_ok rs ns q a hf hav, appendNode_fillPtr]
      show q.fillPtr + ns ≤ rs
      omega
  · intro l hdr C b hlen
    subst hlen
    obtain ⟨h1, h2, h3⟩ := PostAll_arena (hdr + l.length * ns) ns hns l
      (CreateRequestQueue hdr) rfl (le_refl _)
    have hfp : (PostAll (hdr + l.length * ns) ns l
        (CreateRequestQueue (α := α) hdr)).2.fillPtr = hdr + l.length * ns := h3
    refine ⟨h1, ?_⟩
    rw [Post_free_none_full _ _ _ b h2 (by rw [hfp]; omega)]

theorem post_queueFull_spec_witness :
    0 < 1 ∧
    ((PostAll 4 1 [7, 8] (CreateRequestQueue 2 : RQ Nat)).1 = true ∧
      (Post true true 4 1 (PostAll 4 1 [7, 8] (CreateRequestQueue 2 : RQ Nat)).2 9).1 =
        PostResult.queueFull) :=
  ⟨by decide, (post_queueFull_spec Nat 1 (by decide)).2.2 [7, 8] 2 2 9 rfl⟩

/-- C4: the invariant `(head == NULL) ⇔ (tail == NULL)` holds of the freshly
created request queue and is preserved by every `Post`, every
`GetNextRequest` and every `FreeRequest`, whether the operation succeeds or
fails (including the role-assert and lock-timeout paths). -/
theorem head_tail_invariant (α : Type) [Inhabited α] :
    (∀ hdr : Nat, htInv (CreateRequestQueue (α := α) hdr)) ∧
    (∀ (p lk : Bool) (rs ns : Nat) (q : RQ α) (a : α),
      htInv q → htInv (Post p lk rs ns q a).2) ∧
    (∀ (lk : Bool) (q : RQ α), htInv q → htInv (GetNextRequest lk q).2) ∧
    (∀ (lk : Bool) (q : RQ α) (nd : Option Nat), htInv q → htInv (FreeRequest lk q nd)) :=
  ⟨fun _ => ⟨fun _ => rfl, fun _ => rfl⟩, htInv_Post, htInv_GetNext, htInv_FreeRequest⟩

/-- C5 counterexample: a worker calling `Post` is not "reported and a
no-op".  `Post` in a worker runs into `assert(IsParent())`, which aborts the
process (`misuseNoOp`, the outcome the claim describes, is a different
observable outcome than the abort the code produces). -/
theorem post_in_worker_counterexample :
    (Post false true 4 1 (CreateRequestQueue 1 : RQ Nat) 7).1 = PostResult.assertAbort ∧
    PostResult.assertAbort ≠ PostResult.misuseNoOp :=
  ⟨rfl, by decide⟩

/-- C5 (amended): calling `Exit` in the supervisor is reported and is a
no-op — the completion array and control flow are unchanged and the process
does not exit.  Calling `Post` in a worker, however, fails the
`assert(IsParent())` and aborts the process (with assertions compiled in)
rather than being reported and continuing as a no-op; the queue itself is
not mutated. -/
theorem misuse_of_role_spec (α : Type) [Inhabited α] :
    (∀ (st ki : Bool) (idx : Nat) (d : Nat → Bool),
      ProcessPool.Exit true st ki idx d = (.noOp, d)) ∧
    (∀ (lk : Bool) (rs ns : Nat) (q : RQ α) (a : α),
      Post false lk rs ns q a = (.assertAbort, q)) :=
  ⟨fun _ _ _ _ => rfl, fun _ _ _ _ _ => rfl⟩

/-- C6 counterexample: it is not true that spinlock acquisition terminates
for every sequence of backoff delays.  If `random()` always returns a value
with its two low bits clear, every backoff delay is 0 microseconds, the
budget `waitUseconds` is never decremented, and the acquisition loop on a
never-released lock runs forever (it has not exited after any number of
iterations). -/
theorem spin_zero_delay_counterexample : spinNeverExitsOnZeros := by
  intro fuel
  induction fuel with
  | zero => intro i; rfl
  | succ f ih =>
    intro i
    rw [spinLoop, if_neg (by norm_num)]
    have hd : (5000000 : Int) - backoffDelay ((fun _ => 0) i) = 5000000 := by
      simp [backoffDelay]
    rw [hd]
    exact ih (i + 1)

/-- C6 (amended): whenever the spin loop on a never-released lock does exit
— which happens exactly when the cumulative random backoff has consumed the
wall-clock budget, and is not guaranteed for delay sequences that are
eventually always zero — it reports acquisition failure, and `Post`,
`GetNextRequest`, `FreeRequest` and `WaitForCompletion` all return a failed
result on that expiry instead of blocking forever, leaving the queue
unchanged. -/
theorem spinlock_timeout_spec (α : Type) [Inhabited α] :
    (∀ (rand : Nat → Nat) (i fuel : Nat) (w : Int) (b : Bool),
      spinLoop rand i fuel w = some b → b = false) ∧
    (∀ (rs ns : Nat) (q : RQ α) (a : α), Post true false rs ns q a = (.lockTimeout, q)) ∧
    (∀ q : RQ α, GetNextRequest false q = (none, q)) ∧
    (∀ (q : RQ α) (n : Nat), FreeRequest false q (some n) = q) ∧
    (∀ (q : RQ α) (fuel : Nat), WaitForCompletion false q (fuel + 1) = some false) := by
  refine ⟨?_, fun _ _ _ _ => rfl, fun _ => rfl, fun _ _ => rfl, fun _ _ => rfl⟩
  intro rand i fuel w b h
  exact spinLoop_some_false rand fuel i w b h

/-- C7: when `Post` returns any failure (role assert, lock timeout or queue
full), the request-queue state is unchanged — `head`, `tail`, `free`,
`fillPtr` and every stored payload are exactly as before the call. -/
theorem post_fail_unchanged [Inhabited α] (p lk : Bool) (rs ns : Nat) (q : RQ α)
    (a : α) (h : (Post p lk rs ns q a).1 ≠ .ok) : (Post p lk rs ns q a).2 = q := by
  cases p with
  | false => rfl
  | true =>
    cases lk with
    | false => rfl
    | true =>
      cases hf : q.free with
      | some f =>
        rw [Post_free_some rs ns q a f hf] at h
        exact absurd rfl h
      | none =>
        by_cases hav : rs - q.fillPtr < ns
        · rw [Post_free_none_full rs ns q a hf hav]
        · rw [Post_free_none_ok rs ns q a hf hav] at h
          exact absurd rfl h

theorem post_fail_unchanged_witness :
    (Post true false 4 1 (CreateRequestQueue 1 : RQ Nat) 7).1 ≠ PostResult.ok ∧
    (Post true false 4 1 (CreateRequestQueue 1 : RQ Nat) 7).2 = CreateRequestQueue 1 :=
  ⟨by decide, post_fail_unchanged true false 4 1 (CreateRequestQueue 1) 7 (by decide)⟩

/-- C10: if `FreeRequest` fails to acquire the lock within the budget it
returns with the queue unchanged, leaving the node attached to neither the
active list nor the freelist; and since `Post` only reuses nodes popped
from the freelist or bump-allocates past `fillPtr`, such a node stays
unreachable from `head` and `free` across any further sequence of queue
operations that does not free that very node — its slot is permanently lost
to reuse. -/
theorem freeRequest_leak_spec (α : Type) [Inhabited α] (ns : Nat) (hns : 0 < ns) :
    (∀ (q : RQ α) (nd : Option Nat), FreeRequest false q nd = q) ∧
    (∀ (rs n0 : Nat) (q : RQ α) (act fre : List Nat) (ops : List (QOp α))
      (q' : RQ α) (act' fre' : List Nat),
      NodeLost ns n0 q act fre →
      runOpsChk rs ns n0 ops (q, act, fre) = some (q', act', fre') →
      NodeLost ns n0 q' act' fre') := by
  constructor
  · intro q nd
    cases nd with
    | none => rfl
    | some n => rfl
  · intro rs n0 q act fre ops q' act' fre' hl hrun
    exact runOpsChk_lost rs ns hns n0 ops q act fre q' act' fre' hl hrun

theorem freeRequest_leak_spec_witness :
    0 < 1 ∧
    FreeRequest false (CreateRequestQueue 1 : RQ Nat) (some 3) = CreateRequestQueue 1 :=
  ⟨by decide, (freeRequest_leak_spec Nat 1 (by decide)).1 (CreateRequestQueue 1) (some 3)⟩

end ProcessQueue

namespace ProcessPool

/-- C2: over any fixed state of the worker-record array and completion
bytes, `WaitForOne` returns 0 with `crashed = false` if and only if no slot
has status `RUNNING`; when some `RUNNING` slot has its completion byte set,
it returns (for any fuel) the pid of the lowest-indexed such slot with
`crashed = false`, and marks exactly that slot `DONE` (every other slot is
unchanged). -/
theorem waitForOne_spec (recs : List ChildPID) (done alive : Nat → Bool)
    (hpid : ∀ r ∈ recs, r.pid ≠ 0) :
    ((∃ fuel out, WaitForOne recs done alive fuel = some (0, false, out)) ↔
      ∀ r ∈ recs, r.status ≠ .RUNNING) ∧
    (∀ i fuel, i < recs.length →
      (recs.getD i dummyChild).status = .RUNNING → done i = true →
      (∀ j, j < i → ¬((recs.getD j dummyChild).status = .RUNNING ∧ done j = true)) →
      WaitForOne recs done alive (fuel + 1) =
        some ((recs.getD i dummyChild).pid, false, markDone recs i)) ∧
    (∀ i j, j ≠ i → (markDone recs i).getD j dummyChild = recs.getD j dummyChild) ∧
    (∀ i, i < recs.length → (markDone recs i).getD i dummyChild =
      { recs.getD i dummyChild with status := .DONE }) := by
  refine ⟨⟨?_, ?_⟩, ?_, ?_, ?_⟩
  · rintro ⟨fuel, out, h⟩
    exact waitForOneAux_zero_no_running recs done alive hpid fuel CRASH_TEST_INTERVAL out h
  · intro h
    refine ⟨1, recs, ?_⟩
    rw [WaitForOne, waitForOneAux, scanFrom_no_running done alive _ recs 0 h]
  · intro i fuel hi hst hdone hleast
    have hscan := scanFrom_least done alive recs 0 i hi hst
      (by rw [Nat.zero_add]; exact hdone)
      (fun j hj => by rw [Nat.zero_add]; exact hleast j hj)
    rw [WaitForOne, waitForOneAux,
      show (CRASH_TEST_INTERVAL == 0) = false from rfl, hscan, Nat.zero_add]
  · exact markDone_getD_ne recs
  · exact markDone_getD_self recs

theorem waitForOne_spec_witness :
    WaitForOne [⟨5, .RUNNING⟩] (fun _ => true) (fun _ => true) 1 =
      some (5, false, [⟨5, .DONE⟩]) := by
  have h := (waitForOne_spec [⟨5, .RUNNING⟩] (fun _ => true) (fun _ => true)
    (by decide)).2.1 0 0 (by decide) (by decide) rfl
    (fun j hj => absurd hj (by omega))
  simpa using h

/-- C8: along every fork schedule of `Fork(N, min(N, M'))` — where `M'` is
`Create`'s adjustment of `maxConcurrentProcs` (`M` if positive, else `N`) —
the running-children count observed after each fork never exceeds `min(N, M)`
(and never exceeds `N` when `M` is omitted or 0), for any `N ≥ 1` and any
outcomes of the blocking waits: a new fork happens only after a completed
wait has decremented or zeroed the count. -/
theorem fork_concurrency_bound (n m : Nat) (hn : 1 ≤ n) :
    ∀ (ws : Nat → WaitOutcome) (c : Nat),
      c ∈ forkTrace ws (min n (effectiveMaxConcurrent n m)) n 0 0 →
      c ≤ if m = 0 then n else min n m := by
  intro ws c hc
  have hKeq : min n (effectiveMaxConcurrent n m) = if m = 0 then n else min n m := by
    unfold effectiveMaxConcurrent
    by_cases hm : m = 0
    · subst hm; simp
    · rw [if_pos (by omega : 0 < m), if_neg hm]
  have hK1 : 1 ≤ min n (effectiveMaxConcurrent n m) := by
    rw [hKeq]
    by_cases hm : m = 0
    · rw [if_pos hm]; omega
    · rw [if_neg hm]; omega
  rw [← hKeq]
  exact forkTrace_le ws _ hK1 n 0 0 (by omega) c hc

theorem fork_concurrency_bound_witness :
    1 ≤ 2 ∧ ∀ (ws : Nat → WaitOutcome) (c : Nat),
      c ∈ forkTrace ws (min 2 (effectiveMaxConcurrent 2 3)) 2 0 0 →
      c ≤ if 3 = 0 then 2 else min 2 3 :=
  ⟨by decide, fork_concurrency_bound 2 3 (by decide)⟩

/-- C9: `Exit(status)` in a worker terminates it with exit code 0 when
`status` is success — after setting its own completion byte — and with exit
code 1 when `status` is failure, in which case it exits immediately without
setting the completion byte, which therefore stays 0; a supervisor polling
such a dead worker with byte 0 then classifies it as crashed
(`WaitForOne` returns its pid with `crashed = true`). -/
theorem exit_status_spec :
    (∀ (ki : Bool) (idx : Nat) (d : Nat → Bool),
      (Exit false true ki idx d).1 = .exited 0 ∧ (Exit false true ki idx d).2 idx = true) ∧
    (∀ (ki : Bool) (idx : Nat) (d : Nat → Bool),
      (Exit false false ki idx d).1 = .exited 1 ∧ (Exit false false ki idx d).2 = d) ∧
    (∀ p : Nat, WaitForOne [⟨p, .RUNNING⟩] (fun _ => false) (fun _ => false) 11 =
      some (p, true, [⟨p, .DONE⟩])) := by
  refine ⟨fun ki idx d => ⟨rfl, by simp [Exit]⟩, fun ki idx d => ⟨rfl, rfl⟩, ?_⟩
  intro p
  rfl

end ProcessPool
